import Mathlib

/-!
Verification of the pipeline graph validator of `pipeline_validation.py`
(photo-admin repository): the typed node data model, `PipelineConfig`
construction, `parse_node_from_yaml`, `validate_pipeline_structure`,
`flatten_imagegroups_to_specific_images`, and the path enumerator
described in the design document.
-/

namespace PipelineValidation

/-- Maximum loop iterations for Process nodes (constant MAX_ITERATIONS). -/
def MAX_ITERATIONS : Nat := 5

/-- The six node dataclasses (CaptureNode, FileNode, ProcessNode, PairingNode,
BranchingNode, TerminationNode), one constructor per variant, each carrying
the shared fields id, name, output plus the type-specific payload. -/
inductive PipelineNode where
  | capture (id name : String) (output : List String)
  | file (id name : String) (output : List String) (extension : String)
  | process (id name : String) (output : List String) (method_ids : List String)
  | pairing (id name : String) (output : List String) (pairing_type : String) (input_count : Int)
  | branching (id name : String) (output : List String) (condition_description : String)
  | termination (id name : String) (output : List String) (termination_type : String)
deriving DecidableEq

namespace PipelineNode

/-- The shared `id` field. -/
def id : PipelineNode → String
  | .capture i _ _ => i
  | .file i _ _ _ => i
  | .process i _ _ _ => i
  | .pairing i _ _ _ _ => i
  | .branching i _ _ _ => i
  | .termination i _ _ _ => i

/-- The shared `output` field (list of successor node ids). -/
def output : PipelineNode → List String
  | .capture _ _ o => o
  | .file _ _ o _ => o
  | .process _ _ o _ => o
  | .pairing _ _ o _ _ => o
  | .branching _ _ o _ => o
  | .termination _ _ o _ => o

/-- The shared `name` field. -/
def name : PipelineNode → String
  | .capture _ n _ => n
  | .file _ n _ _ => n
  | .process _ n _ _ => n
  | .pairing _ n _ _ _ => n
  | .branching _ n _ _ => n
  | .termination _ n _ _ => n

/-- `isinstance(n, CaptureNode)`. -/
def isCapture : PipelineNode → Bool
  | .capture _ _ _ => true
  | _ => false

/-- `isinstance(n, TerminationNode)`. -/
def isTermination : PipelineNode → Bool
  | .termination _ _ _ _ => true
  | _ => false

end PipelineNode

/-- The dictionary comprehension mapping node.id to node over the node list,
built by `PipelineConfig.__post_init__`, modelled by its lookup function: a
Python dict comprehension is a left fold in which a later binding of the same
key overwrites the earlier one. -/
def nodes_by_id (nodes : List PipelineNode) : String → Option PipelineNode :=
  nodes.foldl (fun d n => fun k => if k = n.id then some n else d k) (fun _ => none)

/-- `PipelineConfig`: stores the node list; `nodes_by_id` above is the derived
lookup dictionary. Construction is a plain record build, total on every node
list (the Python `__post_init__` raises nothing). -/
structure PipelineConfig where
  nodes : List PipelineNode
deriving DecidableEq

/-- Dictionary lookup `pipeline.nodes_by_id[k]` / `k in pipeline.nodes_by_id`. -/
def PipelineConfig.lookup (p : PipelineConfig) (k : String) : Option PipelineNode :=
  nodes_by_id p.nodes k

theorem foldl_dict_lookup (nodes : List PipelineNode) (d : String → Option PipelineNode)
    (k : String) :
    nodes.foldl (fun d n => fun k => if k = n.id then some n else d k) d k
      = (nodes.reverse.find? (fun n => n.id == k)).or (d k) := by
  induction nodes generalizing d with
  | nil => simp
  | cons n ns ih =>
    simp only [List.foldl_cons, List.reverse_cons, List.find?_append, ih]
    cases h : ns.reverse.find? (fun n => n.id == k) with
    | some m => simp [Option.or]
    | none =>
      simp only [Option.or_none, List.find?_cons]
      by_cases hk : k = n.id
      · simp [hk]
      · have : (n.id == k) = false := by
          simp [beq_iff_eq]
          exact fun h2 => hk h2.symm
        simp [this, hk]

/-- The lookup dictionary returns the last node of the list bearing the id. -/
theorem nodes_by_id_eq_find_rev (nodes : List PipelineNode) (k : String) :
    nodes_by_id nodes k = nodes.reverse.find? (fun n => n.id == k) := by
  unfold nodes_by_id
  rw [foldl_dict_lookup]
  cases h : nodes.reverse.find? (fun n => n.id == k) <;> simp [Option.or]

/-- The slice of PhotoAdminConfig read by validate_pipeline_structure:
photo_extensions, metadata_extensions and the processing_methods dictionary,
the latter modelled by its ordered key-value pair list. -/
structure PhotoAdminConfig where
  photo_extensions : List String
  metadata_extensions : List String
  processing_methods : List (String × String)
deriving DecidableEq

/-- One entry of the errors list returned by validate_pipeline_structure;
one constructor per distinct message shape, carrying the data that the
source interpolates into the message string. -/
inductive VError where
  | noCapture
  | multipleCaptures (ids : List String)
  | noTermination
  | danglingOutput (nodeId outputId : String)
  | orphanedNodes (ids : List String)
  | invalidExtension (nodeId ext : String)
  | undefinedMethod (nodeId methodId : String)
deriving DecidableEq

/-- Successors followed by the reachability DFS of check 4: the output list
of the node found in nodes_by_id, nothing when the id is absent. -/
def succs (p : PipelineConfig) (i : String) : List String :=
  match p.lookup i with
  | some n => n.output
  | none => []

/-- The recursive `dfs` of check 4, as an explicit worklist with the same
visited set; `fuel` only bounds the recursion depth and is chosen large
enough below (dfsFuel) to never run out. -/
def dfsVisit (p : PipelineConfig) : Nat → List String → List String → List String
  | 0, _, visited => visited
  | _ + 1, [], visited => visited
  | fuel + 1, i :: rest, visited =>
    if i ∈ visited then dfsVisit p fuel rest visited
    else dfsVisit p fuel (succs p i ++ rest) (i :: visited)

/-- Every id the DFS can ever meet: declared node ids and referenced output ids. -/
def idUniverse (p : PipelineConfig) : List String :=
  ((p.nodes.map (·.id)) ++ p.nodes.flatMap (·.output)).dedup

/-- Weight of one id in the fuel bound: one pop plus one push per successor. -/
def idWeight (p : PipelineConfig) (i : String) : Nat :=
  1 + (succs p i).length

/-- Fuel that always suffices for the DFS to drain its worklist. -/
def dfsFuel (p : PipelineConfig) : Nat :=
  1 + ((idUniverse p).map (idWeight p)).sum

/-- The visited set computed by `dfs(capture_node.id)` in check 4. -/
def reachableFrom (p : PipelineConfig) (root : String) : List String :=
  dfsVisit p (dfsFuel p) [root] []

/-- Forward reachability along output edges (following nodes_by_id lookups). -/
def Reaches (p : PipelineConfig) (a b : String) : Prop :=
  Relation.ReflTransGen (fun x y => y ∈ succs p x) a b

/-- Check 1: exactly one Capture node. -/
def check_capture (p : PipelineConfig) : List VError :=
  let capture_nodes := p.nodes.filter (·.isCapture)
  if capture_nodes.length = 0 then [VError.noCapture]
  else if capture_nodes.length > 1 then [VError.multipleCaptures (capture_nodes.map (·.id))]
  else []

/-- Check 2: at least one Termination node. -/
def check_termination (p : PipelineConfig) : List VError :=
  if (p.nodes.filter (·.isTermination)).length = 0 then [VError.noTermination] else []

/-- Check 3: all output references point to existing nodes. -/
def check_outputs (p : PipelineConfig) : List VError :=
  p.nodes.flatMap (fun n =>
    n.output.filterMap (fun o =>
      if (p.lookup o).isNone then some (VError.danglingOutput n.id o) else none))

/-- The set difference `all_node_ids - reachable` of check 4: the keys of
nodes_by_id (the distinct node ids) that the DFS from `root` did not visit. -/
def orphaned_ids (p : PipelineConfig) (root : String) : List String :=
  ((p.nodes.map (·.id)).dedup).filter (fun i => !(reachableFrom p root).contains i)

/-- Check 4: no orphaned nodes; runs only when a Capture node exists, walking
from the first one; the unreachable ids are reported sorted, as one error. -/
def check_orphans (p : PipelineConfig) : List VError :=
  match p.nodes.filter (·.isCapture) with
  | [] => []
  | c :: _ =>
    if (orphaned_ids p c.id).isEmpty then []
    else [VError.orphanedNodes ((orphaned_ids p c.id).mergeSort (fun a b => decide (a ≤ b)))]

/-- Check 6: every File extension, lowercased, is one of the configured
photo or metadata extensions, also lowercased. -/
def check_extensions (p : PipelineConfig) (config : PhotoAdminConfig) : List VError :=
  let valid_extensions :=
    (config.photo_extensions.map String.toLower) ++ (config.metadata_extensions.map String.toLower)
  p.nodes.filterMap (fun n =>
    match n with
    | .file i _ _ ext =>
      if ext.toLower ∈ valid_extensions then none else some (VError.invalidExtension i ext)
    | _ => none)

/-- Check 7: every Process method id is a processing_methods key or the
empty string, one error per offending entry. -/
def check_methods (p : PipelineConfig) (config : PhotoAdminConfig) : List VError :=
  let valid_method_ids := "" :: config.processing_methods.map Prod.fst
  p.nodes.flatMap (fun n =>
    match n with
    | .process i _ _ ms =>
      ms.filterMap (fun m =>
        if m ∈ valid_method_ids then none else some (VError.undefinedMethod i m))
    | _ => [])

/-- validate_pipeline_structure: the checks run unconditionally in source
order, each appending its own errors to the one list that is returned. -/
def validate_pipeline_structure (p : PipelineConfig) (config : PhotoAdminConfig) : List VError :=
  check_capture p ++ check_termination p ++ check_outputs p ++ check_orphans p
    ++ check_extensions p config ++ check_methods p config

theorem dfsVisit_sound (p : PipelineConfig) :
    ∀ (fuel : Nat) (stack visited : List String), ∀ x ∈ dfsVisit p fuel stack visited,
      x ∈ visited ∨ ∃ s ∈ stack, Reaches p s x := by
  intro fuel
  induction fuel with
  | zero =>
    intro stack visited x hx
    simp only [dfsVisit] at hx
    exact Or.inl hx
  | succ fuel ih =>
    intro stack visited x hx
    match stack with
    | [] =>
      simp only [dfsVisit] at hx
      exact Or.inl hx
    | i :: rest =>
      by_cases hi : i ∈ visited
      · rw [dfsVisit, if_pos hi] at hx
        rcases ih rest visited x hx with h | ⟨s, hs, hr⟩
        · exact Or.inl h
        · exact Or.inr ⟨s, List.mem_cons_of_mem _ hs, hr⟩
      · rw [dfsVisit, if_neg hi] at hx
        rcases ih _ _ x hx with h | ⟨s, hs, hr⟩
        · rcases List.mem_cons.mp h with rfl | h
          · exact Or.inr ⟨x, List.mem_cons_self _ _, Relation.ReflTransGen.refl⟩
          · exact Or.inl h
        · rcases List.mem_append.mp hs with hs | hs
          · exact Or.inr ⟨i, List.mem_cons_self _ _, Relation.ReflTransGen.head hs hr⟩
          · exact Or.inr ⟨s, List.mem_cons_of_mem _ hs, hr⟩

theorem lookup_mem (p : PipelineConfig) (i : String) (n : PipelineNode)
    (h : p.lookup i = some n) : n ∈ p.nodes := by
  unfold PipelineConfig.lookup at h
  rw [nodes_by_id_eq_find_rev] at h
  exact List.mem_reverse.mp (List.mem_of_find?_eq_some h)

theorem succs_subset_universe (p : PipelineConfig) (i x : String)
    (hx : x ∈ succs p i) : x ∈ idUniverse p := by
  unfold succs at hx
  cases h : p.lookup i with
  | none => rw [h] at hx; simp at hx
  | some n =>
    rw [h] at hx
    have hn : n ∈ p.nodes := lookup_mem p i n h
    unfold idUniverse
    rw [List.mem_dedup]
    exact List.mem_append.mpr (Or.inr (List.mem_flatMap.mpr ⟨n, hn, hx⟩))

/-- Remaining work of the DFS: total weight of the ids not yet visited. -/
def dfsMeasure (p : PipelineConfig) (visited : List String) : Nat :=
  (((idUniverse p).filter (fun j => decide (j ∉ visited))).map (idWeight p)).sum

theorem filter_weight_split (w : String → Nat) (visited : List String) (i : String) :
    ∀ l : List String, l.Nodup → i ∈ l → i ∉ visited →
      ((l.filter (fun j => decide (j ∉ visited))).map w).sum
        = w i + ((l.filter (fun j => decide (j ∉ (i :: visited)))).map w).sum := by
  intro l
  induction l with
  | nil => intro _ h; simp at h
  | cons a l ih =>
    intro hnd hmem hiv
    have hal : a ∉ l := (List.nodup_cons.mp hnd).1
    rcases List.mem_cons.mp hmem with rfl | hmem2
    · have hfl : l.filter (fun j => decide (j ∉ (i :: visited)))
          = l.filter (fun j => decide (j ∉ visited)) := by
        apply List.filter_congr
        intro x hx
        have hxi : x ≠ i := fun hh => hal (hh ▸ hx)
        simp [List.mem_cons, hxi]
      have e1 : (i :: l).filter (fun j => decide (j ∉ visited))
          = i :: l.filter (fun j => decide (j ∉ visited)) := by
        rw [List.filter_cons, if_pos (by simp [hiv])]
      have e2 : (i :: l).filter (fun j => decide (j ∉ (i :: visited)))
          = l.filter (fun j => decide (j ∉ (i :: visited))) := by
        rw [List.filter_cons, if_neg (by simp)]
      rw [e1, e2, hfl, List.map_cons, List.sum_cons]
    · have hai : a ≠ i := fun hh => hal (hh ▸ hmem2)
      have hrec := ih (List.nodup_cons.mp hnd).2 hmem2 hiv
      by_cases ha : a ∈ visited
      · have e1 : (a :: l).filter (fun j => decide (j ∉ visited))
            = l.filter (fun j => decide (j ∉ visited)) := by
          rw [List.filter_cons, if_neg (by simp [ha])]
        have e2 : (a :: l).filter (fun j => decide (j ∉ (i :: visited)))
            = l.filter (fun j => decide (j ∉ (i :: visited))) := by
          rw [List.filter_cons, if_neg (by simp [List.mem_cons, ha])]
        rw [e1, e2, hrec]
      · have e1 : (a :: l).filter (fun j => decide (j ∉ visited))
            = a :: l.filter (fun j => decide (j ∉ visited)) := by
          rw [List.filter_cons, if_pos (by simp [ha])]
        have e2 : (a :: l).filter (fun j => decide (j ∉ (i :: visited)))
            = a :: l.filter (fun j => decide (j ∉ (i :: visited))) := by
          rw [List.filter_cons, if_pos (by simp [List.mem_cons, hai, ha])]
        rw [e1, e2, List.map_cons, List.sum_cons, List.map_cons, List.sum_cons, hrec]
        omega

theorem dfsMeasure_split (p : PipelineConfig) (visited : List String) (i : String)
    (hiU : i ∈ idUniverse p) (hiv : i ∉ visited) :
    dfsMeasure p visited = idWeight p i + dfsMeasure p (i :: visited) :=
  filter_weight_split (idWeight p) visited i (idUniverse p) (List.nodup_dedup _) hiU hiv

theorem dfsMeasure_nil (p : PipelineConfig) :
    dfsMeasure p [] = ((idUniverse p).map (idWeight p)).sum := by
  unfold dfsMeasure
  congr 1
  apply congrArg
  apply List.filter_eq_self.mpr
  intro x _
  simp

theorem dfsVisit_complete (p : PipelineConfig) :
    ∀ (fuel : Nat) (stack visited : List String),
      (∀ s ∈ stack, s ∈ idUniverse p) →
      (∀ v ∈ visited, ∀ w ∈ succs p v, w ∈ visited ∨ w ∈ stack) →
      stack.length + dfsMeasure p visited ≤ fuel →
      (∀ s ∈ stack, s ∈ dfsVisit p fuel stack visited) ∧
      (∀ v ∈ visited, v ∈ dfsVisit p fuel stack visited) ∧
      (∀ v ∈ dfsVisit p fuel stack visited, ∀ w ∈ succs p v,
        w ∈ dfsVisit p fuel stack visited) := by
  intro fuel
  induction fuel with
  | zero =>
    intro stack visited hU hInv hb
    have hstack : stack = [] := by
      cases stack with
      | nil => rfl
      | cons a s => simp at hb
    subst hstack
    simp only [dfsVisit]
    refine ⟨by simp, fun v hv => hv, ?_⟩
    intro v hv w hw
    rcases hInv v hv w hw with h | h
    · exact h
    · simp at h
  | succ fuel ih =>
    intro stack visited hU hInv hb
    match stack with
    | [] =>
      simp only [dfsVisit]
      refine ⟨by simp, fun v hv => hv, ?_⟩
      intro v hv w hw
      rcases hInv v hv w hw with h | h
      · exact h
      · simp at h
    | i :: rest =>
      by_cases hi : i ∈ visited
      · rw [dfsVisit, if_pos hi]
        have hU2 : ∀ s ∈ rest, s ∈ idUniverse p :=
          fun s hs => hU s (List.mem_cons_of_mem _ hs)
        have hInv2 : ∀ v ∈ visited, ∀ w ∈ succs p v, w ∈ visited ∨ w ∈ rest := by
          intro v hv w hw
          rcases hInv v hv w hw with h | h
          · exact Or.inl h
          · rcases List.mem_cons.mp h with rfl | h
            · exact Or.inl hi
            · exact Or.inr h
        have hb2 : rest.length + dfsMeasure p visited ≤ fuel := by
          simp only [List.length_cons] at hb
          omega
        obtain ⟨h1, h2, h3⟩ := ih rest visited hU2 hInv2 hb2
        refine ⟨?_, h2, h3⟩
        intro s hs
        rcases List.mem_cons.mp hs with rfl | hs
        · exact h2 _ hi
        · exact h1 _ hs
      · rw [dfsVisit, if_neg hi]
        have hiU : i ∈ idUniverse p := hU i (List.mem_cons_self _ _)
        have hU2 : ∀ s ∈ succs p i ++ rest, s ∈ idUniverse p := by
          intro s hs
          rcases List.mem_append.mp hs with hs | hs
          · exact succs_subset_universe p i s hs
          · exact hU s (List.mem_cons_of_mem _ hs)
        have hInv2 : ∀ v ∈ i :: visited, ∀ w ∈ succs p v,
            w ∈ i :: visited ∨ w ∈ succs p i ++ rest := by
          intro v hv w hw
          rcases List.mem_cons.mp hv with rfl | hv
          · exact Or.inr (List.mem_append.mpr (Or.inl hw))
          · rcases hInv v hv w hw with h | h
            · exact Or.inl (List.mem_cons_of_mem _ h)
            · rcases List.mem_cons.mp h with rfl | h
              · exact Or.inl (List.mem_cons_self _ _)
              · exact Or.inr (List.mem_append.mpr (Or.inr h))
        have hsplit := dfsMeasure_split p visited i hiU hi
        have hb2 : (succs p i ++ rest).length + dfsMeasure p (i :: visited) ≤ fuel := by
          simp only [List.length_cons] at hb
          simp only [List.length_append]
          unfold idWeight at hsplit
          omega
        obtain ⟨h1, h2, h3⟩ := ih _ _ hU2 hInv2 hb2
        refine ⟨?_, fun v hv => h2 _ (List.mem_cons_of_mem _ hv), h3⟩
        intro s hs
        rcases List.mem_cons.mp hs with rfl | hs
        · exact h2 _ (List.mem_cons_self _ _)
        · exact h1 _ (List.mem_append.mpr (Or.inr hs))

/-- The DFS visited set is exactly forward reachability from the root,
for every graph shape, cyclic ones included. -/
theorem mem_reachableFrom (p : PipelineConfig) (root : String)
    (hroot : root ∈ idUniverse p) (x : String) :
    x ∈ reachableFrom p root ↔ Reaches p root x := by
  constructor
  · intro hx
    rcases dfsVisit_sound p (dfsFuel p) [root] [] x hx with h | ⟨s, hs, hr⟩
    · simp at h
    · rw [List.mem_singleton] at hs
      subst hs
      exact hr
  · intro hx
    obtain ⟨h1, _, h3⟩ := dfsVisit_complete p (dfsFuel p) [root] []
      (by intro s hs; rw [List.mem_singleton] at hs; subst hs; exact hroot)
      (by simp)
      (by rw [dfsMeasure_nil]; simp [dfsFuel])
    unfold reachableFrom
    induction hx with
    | refl => exact h1 root (List.mem_singleton_self _)
    | tail hab hbc ihx => exact h3 _ ihx _ hbc

theorem check_capture_shape (p : PipelineConfig) :
    ∀ e ∈ check_capture p, e = VError.noCapture ∨ ∃ ids, e = VError.multipleCaptures ids := by
  intro e he
  simp only [check_capture] at he
  split at he
  · rw [List.mem_singleton] at he
    exact Or.inl he
  · split at he
    · rw [List.mem_singleton] at he
      exact Or.inr ⟨_, he⟩
    · simp at he

theorem check_termination_shape (p : PipelineConfig) :
    ∀ e ∈ check_termination p, e = VError.noTermination := by
  intro e he
  simp only [check_termination] at he
  split at he
  · exact List.mem_singleton.mp he
  · simp at he

theorem check_outputs_shape (p : PipelineConfig) :
    ∀ e ∈ check_outputs p, ∃ a b, e = VError.danglingOutput a b := by
  intro e he
  simp only [check_outputs, List.mem_flatMap] at he
  obtain ⟨n, _, hn⟩ := he
  rw [List.mem_filterMap] at hn
  obtain ⟨o, _, ho⟩ := hn
  split at ho
  · exact ⟨n.id, o, (Option.some_inj.mp ho).symm⟩
  · simp at ho

theorem check_orphans_shape (p : PipelineConfig) :
    ∀ e ∈ check_orphans p, ∃ L, e = VError.orphanedNodes L := by
  intro e he
  unfold check_orphans at he
  split at he
  · simp at he
  · split at he
    · simp at he
    · exact ⟨_, List.mem_singleton.mp he⟩

theorem check_extensions_shape (p : PipelineConfig) (cfg : PhotoAdminConfig) :
    ∀ e ∈ check_extensions p cfg, ∃ a b, e = VError.invalidExtension a b := by
  intro e he
  simp only [check_extensions, List.mem_filterMap] at he
  obtain ⟨n, _, hn⟩ := he
  cases n with
  | file i nm out ext =>
    dsimp at hn
    split at hn
    · simp at hn
    · exact ⟨i, ext, (Option.some_inj.mp hn).symm⟩
  | capture i nm out => simp at hn
  | process i nm out ms => simp at hn
  | pairing i nm out pt ic => simp at hn
  | branching i nm out cd => simp at hn
  | termination i nm out tt => simp at hn

theorem check_methods_shape (p : PipelineConfig) (cfg : PhotoAdminConfig) :
    ∀ e ∈ check_methods p cfg, ∃ a b, e = VError.undefinedMethod a b := by
  intro e he
  simp only [check_methods, List.mem_flatMap] at he
  obtain ⟨n, _, hn⟩ := he
  cases n with
  | process i nm out ms =>
    dsimp at hn
    rw [List.mem_filterMap] at hn
    obtain ⟨m, _, hm⟩ := hn
    split at hm
    · simp at hm
    · exact ⟨i, m, (Option.some_inj.mp hm).symm⟩
  | capture i nm out => simp at hn
  | file i nm out ext => simp at hn
  | pairing i nm out pt ic => simp at hn
  | branching i nm out cd => simp at hn
  | termination i nm out tt => simp at hn

theorem mem_check_capture_noCapture (p : PipelineConfig) :
    VError.noCapture ∈ check_capture p ↔ p.nodes.filter (·.isCapture) = [] := by
  simp only [check_capture]
  split
  · next h => simp [List.length_eq_zero.mp h]
  · next h =>
    rw [← List.length_eq_zero]
    split <;> simp [h]

theorem mem_check_capture_multiple (p : PipelineConfig) (ids : List String) :
    VError.multipleCaptures ids ∈ check_capture p ↔
      1 < (p.nodes.filter (·.isCapture)).length ∧
        ids = (p.nodes.filter (·.isCapture)).map (·.id) := by
  simp only [check_capture]
  split
  · next h => simp [h]
  · split
    · next h2 => simp [h2, eq_comm]
    · next h2 => simp [h2]

theorem mem_check_termination_iff (p : PipelineConfig) :
    VError.noTermination ∈ check_termination p ↔ p.nodes.filter (·.isTermination) = [] := by
  simp only [check_termination]
  split
  · next h => simp [List.length_eq_zero.mp h]
  · next h =>
    rw [← List.length_eq_zero]
    simp [h]

theorem mem_check_outputs_iff (p : PipelineConfig) (a b : String) :
    VError.danglingOutput a b ∈ check_outputs p ↔
      ∃ n ∈ p.nodes, n.id = a ∧ b ∈ n.output ∧ p.lookup b = none := by
  simp only [check_outputs, List.mem_flatMap, List.mem_filterMap]
  constructor
  · rintro ⟨n, hn, o, ho, heq⟩
    split at heq
    · next hnone =>
      rw [Option.some_inj] at heq
      obtain ⟨h1, h2⟩ := VError.danglingOutput.inj heq
      subst h1; subst h2
      exact ⟨n, hn, rfl, ho, Option.isNone_iff_eq_none.mp hnone⟩
    · simp at heq
  · rintro ⟨n, hn, rfl, hb, hnone⟩
    exact ⟨n, hn, b, hb, by rw [if_pos (by simp [hnone])]⟩

theorem mem_check_orphans_iff (p : PipelineConfig) (L : List String) :
    VError.orphanedNodes L ∈ check_orphans p ↔
      ∃ c rest, p.nodes.filter (·.isCapture) = c :: rest ∧ orphaned_ids p c.id ≠ [] ∧
        L = (orphaned_ids p c.id).mergeSort (fun a b => decide (a ≤ b)) := by
  unfold check_orphans
  rcases hf : p.nodes.filter (·.isCapture) with _ | ⟨c, rest⟩
  · rw [hf]
    simp
  · rw [hf]
    dsimp only
    split
    · next hemp =>
      rw [List.isEmpty_iff] at hemp
      simp [hemp]
    · next hemp =>
      rw [List.isEmpty_iff] at hemp
      simp only [List.mem_singleton, VError.orphanedNodes.injEq]
      constructor
      · intro h
        exact ⟨c, rest, rfl, hemp, h⟩
      · rintro ⟨c2, rest2, hc2, _, hL⟩
        obtain ⟨rfl, rfl⟩ := List.cons.inj hc2
        exact hL

theorem mem_check_extensions_iff (p : PipelineConfig) (cfg : PhotoAdminConfig)
    (a e : String) :
    VError.invalidExtension a e ∈ check_extensions p cfg ↔
      ∃ nm out, PipelineNode.file a nm out e ∈ p.nodes ∧
        e.toLower ∉ (cfg.photo_extensions.map String.toLower
          ++ cfg.metadata_extensions.map String.toLower) := by
  simp only [check_extensions, List.mem_filterMap]
  constructor
  · rintro ⟨n, hn, heq⟩
    cases n with
    | file i nm out ext =>
      dsimp at heq
      split at heq
      · simp at heq
      · next hc =>
        obtain ⟨h1, h2⟩ := VError.invalidExtension.inj (Option.some_inj.mp heq)
        subst h1; subst h2
        exact ⟨nm, out, hn, hc⟩
    | capture i nm out => simp at heq
    | process i nm out ms => simp at heq
    | pairing i nm out pt ic => simp at heq
    | branching i nm out cd => simp at heq
    | termination i nm out tt => simp at heq
  · rintro ⟨nm, out, hn, hni⟩
    refine ⟨PipelineNode.file a nm out e, hn, ?_⟩
    dsimp
    rw [if_neg hni]

theorem mem_check_methods_iff (p : PipelineConfig) (cfg : PhotoAdminConfig)
    (a m : String) :
    VError.undefinedMethod a m ∈ check_methods p cfg ↔
      ∃ nm out ms, PipelineNode.process a nm out ms ∈ p.nodes ∧ m ∈ ms ∧
        ¬ (m = "" ∨ m ∈ cfg.processing_methods.map Prod.fst) := by
  simp only [check_methods, List.mem_flatMap]
  constructor
  · rintro ⟨n, hn, hm⟩
    cases n with
    | process i nm out ms =>
      dsimp at hm
      rw [List.mem_filterMap] at hm
      obtain ⟨m2, hm2, heq⟩ := hm
      split at heq
      · simp at heq
      · next hc =>
        obtain ⟨h1, h2⟩ := VError.undefinedMethod.inj (Option.some_inj.mp heq)
        subst h1; subst h2
        rw [List.mem_cons] at hc
        exact ⟨nm, out, ms, hn, hm2, hc⟩
    | capture i nm out => simp at hm
    | file i nm out ext => simp at hm
    | pairing i nm out pt ic => simp at hm
    | branching i nm out cd => simp at hm
    | termination i nm out tt => simp at hm
  · rintro ⟨nm, out, ms, hn, hm, hni⟩
    refine ⟨PipelineNode.process a nm out ms, hn, ?_⟩
    dsimp
    rw [List.mem_filterMap]
    exact ⟨m, hm, by rw [if_neg (by rw [List.mem_cons]; exact hni)]⟩

theorem mem_validate_iff (p : PipelineConfig) (cfg : PhotoAdminConfig) (e : VError) :
    e ∈ validate_pipeline_structure p cfg ↔
      e ∈ check_capture p ∨ e ∈ check_termination p ∨ e ∈ check_outputs p ∨
      e ∈ check_orphans p ∨ e ∈ check_extensions p cfg ∨ e ∈ check_methods p cfg := by
  simp [validate_pipeline_structure, List.mem_append, or_assoc]

theorem mem_validate_noCapture (p : PipelineConfig) (cfg : PhotoAdminConfig) :
    VError.noCapture ∈ validate_pipeline_structure p cfg ↔
      VError.noCapture ∈ check_capture p := by
  rw [mem_validate_iff]
  constructor
  · rintro (h | h | h | h | h | h)
    · exact h
    · have h2 := check_termination_shape p _ h; simp at h2
    · obtain ⟨a, b, h2⟩ := check_outputs_shape p _ h; simp at h2
    · obtain ⟨l2, h2⟩ := check_orphans_shape p _ h; simp at h2
    · obtain ⟨a, b, h2⟩ := check_extensions_shape p cfg _ h; simp at h2
    · obtain ⟨a, b, h2⟩ := check_methods_shape p cfg _ h; simp at h2
  · exact fun h => Or.inl h

theorem mem_validate_multipleCaptures (p : PipelineConfig) (cfg : PhotoAdminConfig)
    (ids : List String) :
    VError.multipleCaptures ids ∈ validate_pipeline_structure p cfg ↔
      VError.multipleCaptures ids ∈ check_capture p := by
  rw [mem_validate_iff]
  constructor
  · rintro (h | h | h | h | h | h)
    · exact h
    · have h2 := check_termination_shape p _ h; simp at h2
    · obtain ⟨a, b, h2⟩ := check_outputs_shape p _ h; simp at h2
    · obtain ⟨l2, h2⟩ := check_orphans_shape p _ h; simp at h2
    · obtain ⟨a, b, h2⟩ := check_extensions_shape p cfg _ h; simp at h2
    · obtain ⟨a, b, h2⟩ := check_methods_shape p cfg _ h; simp at h2
  · exact fun h => Or.inl h

theorem mem_validate_noTermination (p : PipelineConfig) (cfg : PhotoAdminConfig) :
    VError.noTermination ∈ validate_pipeline_structure p cfg ↔
      VError.noTermination ∈ check_termination p := by
  rw [mem_validate_iff]
  constructor
  · rintro (h | h | h | h | h | h)
    · rcases check_capture_shape p _ h with h2 | ⟨ids, h2⟩ <;> simp at h2
    · exact h
    · obtain ⟨a, b, h2⟩ := check_outputs_shape p _ h; simp at h2
    · obtain ⟨l2, h2⟩ := check_orphans_shape p _ h; simp at h2
    · obtain ⟨a, b, h2⟩ := check_extensions_shape p cfg _ h; simp at h2
    · obtain ⟨a, b, h2⟩ := check_methods_shape p cfg _ h; simp at h2
  · exact fun h => Or.inr (Or.inl h)

theorem mem_validate_dangling (p : PipelineConfig) (cfg : PhotoAdminConfig) (a b : String) :
    VError.danglingOutput a b ∈ validate_pipeline_structure p cfg ↔
      VError.danglingOutput a b ∈ check_outputs p := by
  rw [mem_validate_iff]
  constructor
  · rintro (h | h | h | h | h | h)
    · rcases check_capture_shape p _ h with h2 | ⟨ids, h2⟩ <;> simp at h2
    · have h2 := check_termination_shape p _ h; simp at h2
    · exact h
    · obtain ⟨l2, h2⟩ := check_orphans_shape p _ h; simp at h2
    · obtain ⟨x, y, h2⟩ := check_extensions_shape p cfg _ h; simp at h2
    · obtain ⟨x, y, h2⟩ := check_methods_shape p cfg _ h; simp at h2
  · exact fun h => Or.inr (Or.inr (Or.inl h))

theorem mem_validate_orphan (p : PipelineConfig) (cfg : PhotoAdminConfig) (L : List String) :
    VError.orphanedNodes L ∈ validate_pipeline_structure p cfg ↔
      VError.orphanedNodes L ∈ check_orphans p := by
  rw [mem_validate_iff]
  constructor
  · rintro (h | h | h | h | h | h)
    · rcases check_capture_shape p _ h with h2 | ⟨ids, h2⟩ <;> simp at h2
    · have h2 := check_termination_shape p _ h; simp at h2
    · obtain ⟨a, b, h2⟩ := check_outputs_shape p _ h; simp at h2
    · exact h
    · obtain ⟨a, b, h2⟩ := check_extensions_shape p cfg _ h; simp at h2
    · obtain ⟨a, b, h2⟩ := check_methods_shape p cfg _ h; simp at h2
  · exact fun h => Or.inr (Or.inr (Or.inr (Or.inl h)))

theorem mem_validate_invalidExtension (p : PipelineConfig) (cfg : PhotoAdminConfig)
    (a e : String) :
    VError.invalidExtension a e ∈ validate_pipeline_structure p cfg ↔
      VError.invalidExtension a e ∈ check_extensions p cfg := by
  rw [mem_validate_iff]
  constructor
  · rintro (h | h | h | h | h | h)
    · rcases check_capture_shape p _ h with h2 | ⟨ids, h2⟩ <;> simp at h2
    · have h2 := check_termination_shape p _ h; simp at h2
    · obtain ⟨x, y, h2⟩ := check_outputs_shape p _ h; simp at h2
    · obtain ⟨l2, h2⟩ := check_orphans_shape p _ h; simp at h2
    · exact h
    · obtain ⟨x, y, h2⟩ := check_methods_shape p cfg _ h; simp at h2
  · exact fun h => Or.inr (Or.inr (Or.inr (Or.inr (Or.inl h))))

theorem mem_validate_undefinedMethod (p : PipelineConfig) (cfg : PhotoAdminConfig)
    (a m : String) :
    VError.undefinedMethod a m ∈ validate_pipeline_structure p cfg ↔
      VError.undefinedMethod a m ∈ check_methods p cfg := by
  rw [mem_validate_iff]
  constructor
  · rintro (h | h | h | h | h | h)
    · rcases check_capture_shape p _ h with h2 | ⟨ids, h2⟩ <;> simp at h2
    · have h2 := check_termination_shape p _ h; simp at h2
    · obtain ⟨x, y, h2⟩ := check_outputs_shape p _ h; simp at h2
    · obtain ⟨l2, h2⟩ := check_orphans_shape p _ h; simp at h2
    · obtain ⟨x, y, h2⟩ := check_extensions_shape p cfg _ h; simp at h2
    · exact h
  · exact fun h => Or.inr (Or.inr (Or.inr (Or.inr (Or.inr h))))

theorem capture_mem_universe (p : PipelineConfig) (c0 : PipelineNode)
    (h : c0 ∈ p.nodes) : c0.id ∈ idUniverse p := by
  unfold idUniverse
  rw [List.mem_dedup]
  exact List.mem_append.mpr (Or.inl (List.mem_map.mpr ⟨c0, h, rfl⟩))

theorem mem_orphaned_ids (p : PipelineConfig) (root : String)
    (hroot : root ∈ idUniverse p) (i : String) :
    i ∈ orphaned_ids p root ↔ i ∈ p.nodes.map (·.id) ∧ ¬ Reaches p root i := by
  unfold orphaned_ids
  rw [List.mem_filter, List.mem_dedup, ← mem_reachableFrom p root hroot i]
  simp

/-- C9: PipelineConfig construction is a total record build over every node
list; it raises nothing on duplicate ids, stores the nodes list unchanged,
duplicates included, and its nodes_by_id lookup returns the last node of the
list carrying the id (the Python dict comprehension overwrites earlier
bindings of the same key). -/
theorem pipeline_config_total_last_wins (nodes : List PipelineNode) (i : String) :
    (PipelineConfig.mk nodes).nodes = nodes ∧
    (PipelineConfig.mk nodes).lookup i = nodes.reverse.find? (fun n => n.id == i) :=
  ⟨rfl, nodes_by_id_eq_find_rev nodes i⟩

/-- Two nodes sharing the id "a". -/
def dupNodeA : PipelineNode := .capture "a" "Camera Capture" ["a"]

/-- A second node also carrying the id "a". -/
def dupNodeB : PipelineNode := .file "a" "Raw File" [] ".CR3"

/-- A pipeline whose node list holds two nodes with the same id. -/
def dupPipeline : PipelineConfig := ⟨[dupNodeA, dupNodeB]⟩

/-- C1 (code behaviour at the failing input): although its own documentation
says duplicate node ids are rejected at construction, PipelineConfig built
from two nodes sharing id "a" goes through with no error: the node list is
stored unchanged and nodes_by_id silently keeps the later node. -/
theorem duplicate_node_id_not_rejected :
    dupPipeline.nodes = [dupNodeA, dupNodeB] ∧
    dupNodeA.id = dupNodeB.id ∧
    dupPipeline.lookup "a" = some dupNodeB := by
  refine ⟨rfl, rfl, ?_⟩
  decide

/-- C2: when the pipeline has at least one Capture node (c0 being the first),
validate_pipeline_structure reports an orphaned-node error iff some node id is
unreachable from c0 along forward output edges, and the reported list holds
exactly the unreachable node ids; the underlying DFS is total and cycle-safe,
since mem_reachableFrom characterises it on arbitrary, possibly cyclic graphs. -/
theorem orphan_error_iff_unreachable (p : PipelineConfig) (cfg : PhotoAdminConfig)
    (c0 : PipelineNode) (hc : (p.nodes.filter (·.isCapture)).head? = some c0) :
    ((∃ L, VError.orphanedNodes L ∈ validate_pipeline_structure p cfg) ↔
      ∃ i ∈ p.nodes.map (·.id), ¬ Reaches p c0.id i) ∧
    (∀ L, VError.orphanedNodes L ∈ validate_pipeline_structure p cfg →
      ∀ i, (i ∈ L ↔ i ∈ p.nodes.map (·.id) ∧ ¬ Reaches p c0.id i)) := by
  obtain ⟨rest, hrest⟩ : ∃ t, p.nodes.filter (·.isCapture) = c0 :: t := by
    cases hfl : p.nodes.filter (·.isCapture) with
    | nil => rw [hfl] at hc; simp at hc
    | cons a t =>
      rw [hfl] at hc
      simp only [List.head?_cons, Option.some_inj] at hc
      exact ⟨t, by rw [hc]⟩
  have hc0mem : c0 ∈ p.nodes := by
    have : c0 ∈ p.nodes.filter (·.isCapture) := by
      rw [hrest]; exact List.mem_cons_self _ _
    exact (List.mem_filter.mp this).1
  have hrootU : c0.id ∈ idUniverse p := capture_mem_universe p c0 hc0mem
  have horph := mem_orphaned_ids p c0.id hrootU
  constructor
  · constructor
    · rintro ⟨L, hL⟩
      rw [mem_validate_orphan, mem_check_orphans_iff] at hL
      obtain ⟨c2, rest2, hc2, hne, _⟩ := hL
      rw [hrest] at hc2
      have hcc : c2 = c0 := (List.cons.inj hc2).1.symm
      subst hcc
      obtain ⟨i, hi⟩ := List.exists_mem_of_ne_nil _ hne
      obtain ⟨h1, h2⟩ := (horph i).mp hi
      exact ⟨i, h1, h2⟩
    · rintro ⟨i, hmem, hnr⟩
      refine ⟨(orphaned_ids p c0.id).mergeSort (fun a b => decide (a ≤ b)), ?_⟩
      rw [mem_validate_orphan, mem_check_orphans_iff]
      refine ⟨c0, rest, hrest, ?_, rfl⟩
      intro hnil
      have hin : i ∈ orphaned_ids p c0.id := (horph i).mpr ⟨hmem, hnr⟩
      rw [hnil] at hin
      simp at hin
  · intro L hL i
    rw [mem_validate_orphan, mem_check_orphans_iff] at hL
    obtain ⟨c2, rest2, hc2, _, hLs⟩ := hL
    rw [hrest] at hc2
    have hcc : c2 = c0 := (List.cons.inj hc2).1.symm
    subst hcc
    subst hLs
    rw [List.mem_mergeSort]
    exact horph i

/-- C3: validate_pipeline_structure never stops at a first failure: for each
kind of defect, an error of that kind appears in the returned list exactly
when that kind of defect is present, independently of all the other checks. -/
theorem validate_reports_all_checks (p : PipelineConfig) (cfg : PhotoAdminConfig) :
    (VError.noCapture ∈ validate_pipeline_structure p cfg ↔
      p.nodes.filter (·.isCapture) = []) ∧
    (∀ ids, VError.multipleCaptures ids ∈ validate_pipeline_structure p cfg ↔
      1 < (p.nodes.filter (·.isCapture)).length ∧
        ids = (p.nodes.filter (·.isCapture)).map (·.id)) ∧
    (VError.noTermination ∈ validate_pipeline_structure p cfg ↔
      p.nodes.filter (·.isTermination) = []) ∧
    (∀ a b, VError.danglingOutput a b ∈ validate_pipeline_structure p cfg ↔
      ∃ n ∈ p.nodes, n.id = a ∧ b ∈ n.output ∧ p.lookup b = none) ∧
    (∀ L, VError.orphanedNodes L ∈ validate_pipeline_structure p cfg ↔
      ∃ c rest, p.nodes.filter (·.isCapture) = c :: rest ∧ orphaned_ids p c.id ≠ [] ∧
        L = (orphaned_ids p c.id).mergeSort (fun a b => decide (a ≤ b))) ∧
    (∀ a e, VError.invalidExtension a e ∈ validate_pipeline_structure p cfg ↔
      ∃ nm out, PipelineNode.file a nm out e ∈ p.nodes ∧
        e.toLower ∉ (cfg.photo_extensions.map String.toLower
          ++ cfg.metadata_extensions.map String.toLower)) ∧
    (∀ a m, VError.undefinedMethod a m ∈ validate_pipeline_structure p cfg ↔
      ∃ nm out ms, PipelineNode.process a nm out ms ∈ p.nodes ∧ m ∈ ms ∧
        ¬ (m = "" ∨ m ∈ cfg.processing_methods.map Prod.fst)) := by
  refine ⟨?_, ?_, ?_, ?_, ?_, ?_, ?_⟩
  · rw [mem_validate_noCapture, mem_check_capture_noCapture]
  · intro ids
    rw [mem_validate_multipleCaptures, mem_check_capture_multiple]
  · rw [mem_validate_noTermination, mem_check_termination_iff]
  · intro a b
    rw [mem_validate_dangling, mem_check_outputs_iff]
  · intro L
    rw [mem_validate_orphan, mem_check_orphans_iff]
  · intro a e
    rw [mem_validate_invalidExtension, mem_check_extensions_iff]
  · intro a m
    rw [mem_validate_undefinedMethod, mem_check_methods_iff]

/-- C5: a File node draws an invalid-extension error exactly when its
extension, lowercased, is in neither configured extension list (also
lowercased); the verdict is invariant under letter-case changes of the
extension or of the configured lists. -/
theorem file_extension_error_iff (p : PipelineConfig) (cfg : PhotoAdminConfig)
    (i nm : String) (out : List String) (ext : String)
    (h : PipelineNode.file i nm out ext ∈ p.nodes) :
    (VError.invalidExtension i ext ∈ validate_pipeline_structure p cfg ↔
      ext.toLower ∉ (cfg.photo_extensions.map String.toLower
        ++ cfg.metadata_extensions.map String.toLower)) ∧
    (∀ (p2 : PipelineConfig) (cfg2 : PhotoAdminConfig) i2 nm2 out2 ext2,
      PipelineNode.file i2 nm2 out2 ext2 ∈ p2.nodes →
      ext2.toLower = ext.toLower →
      cfg2.photo_extensions.map String.toLower = cfg.photo_extensions.map String.toLower →
      cfg2.metadata_extensions.map String.toLower = cfg.metadata_extensions.map String.toLower →
      (VError.invalidExtension i2 ext2 ∈ validate_pipeline_structure p2 cfg2 ↔
        VError.invalidExtension i ext ∈ validate_pipeline_structure p cfg)) := by
  have key : ∀ (q : PipelineConfig) (c : PhotoAdminConfig) (j jn : String)
      (jo : List String) (je : String), PipelineNode.file j jn jo je ∈ q.nodes →
      (VError.invalidExtension j je ∈ validate_pipeline_structure q c ↔
        je.toLower ∉ (c.photo_extensions.map String.toLower
          ++ c.metadata_extensions.map String.toLower)) := by
    intro q c j jn jo je hj
    rw [mem_validate_invalidExtension, mem_check_extensions_iff]
    constructor
    · rintro ⟨n2, o2, _, hni⟩
      exact hni
    · intro hni
      exact ⟨jn, jo, hj, hni⟩
  refine ⟨key p cfg i nm out ext h, ?_⟩
  intro p2 cfg2 i2 nm2 out2 ext2 h2 he hp hm
  rw [key p2 cfg2 i2 nm2 out2 ext2 h2, key p cfg i nm out ext h, he, hp, hm]

/-- C6: each entry of a Process node method_ids list draws an
undefined-processing-method error exactly when it is non-empty and is not a
processing_methods key; an empty-string entry never draws one. -/
theorem process_method_error_iff (p : PipelineConfig) (cfg : PhotoAdminConfig)
    (i nm : String) (out ms : List String)
    (h : PipelineNode.process i nm out ms ∈ p.nodes) :
    (∀ m ∈ ms, (VError.undefinedMethod i m ∈ validate_pipeline_structure p cfg ↔
      (m ≠ "" ∧ m ∉ cfg.processing_methods.map Prod.fst))) ∧
    (∀ j, VError.undefinedMethod j "" ∉ validate_pipeline_structure p cfg) := by
  constructor
  · intro m hm
    rw [mem_validate_undefinedMethod, mem_check_methods_iff]
    constructor
    · rintro ⟨n2, o2, ms2, _, _, hni⟩
      push_neg at hni
      exact hni
    · rintro ⟨h1, h2⟩
      exact ⟨nm, out, ms, h, hm, by push_neg; exact ⟨h1, h2⟩⟩
  · intro j hmem
    rw [mem_validate_undefinedMethod, mem_check_methods_iff] at hmem
    obtain ⟨_, _, _, _, _, hni⟩ := hmem
    exact hni (Or.inl rfl)

/-- The Capture node of the concrete example pipeline below. -/
def wCap : PipelineNode := .capture "capture" "Capture" ["raw"]

/-- A concrete pipeline: a linear Capture to Termination chain plus one node
("lost") that no output edge reaches. -/
def wPipeline : PipelineConfig :=
  ⟨[wCap,
    .file "raw" "Raw" ["proc"] ".CR3",
    .process "proc" "Edit" ["done"] ["Edit", "Bogus"],
    .termination "done" "Done" [] "Archive",
    .file "lost" "Lost" [] ".BAD"]⟩

/-- A concrete configuration for the example pipeline. -/
def wConfig : PhotoAdminConfig := ⟨[".cr3"], [".xmp"], [("Edit", "Editing")]⟩

theorem orphan_error_iff_unreachable_witness :
    (wPipeline.nodes.filter (·.isCapture)).head? = some wCap ∧
    ((∃ L, VError.orphanedNodes L ∈ validate_pipeline_structure wPipeline wConfig) ↔
      ∃ i ∈ wPipeline.nodes.map (·.id), ¬ Reaches wPipeline wCap.id i) :=
  ⟨rfl, (orphan_error_iff_unreachable wPipeline wConfig wCap rfl).1⟩

theorem file_extension_error_iff_witness :
    PipelineNode.file "raw" "Raw" ["proc"] ".CR3" ∈ wPipeline.nodes ∧
    (VError.invalidExtension "raw" ".CR3" ∈ validate_pipeline_structure wPipeline wConfig ↔
      ".CR3".toLower ∉ (wConfig.photo_extensions.map String.toLower
        ++ wConfig.metadata_extensions.map String.toLower)) :=
  ⟨by decide,
    (file_extension_error_iff wPipeline wConfig "raw" "Raw" ["proc"] ".CR3" (by decide)).1⟩

theorem process_method_error_iff_witness :
    (PipelineNode.process "proc" "Edit" ["done"] ["Edit", "Bogus"] ∈ wPipeline.nodes
      ∧ "Bogus" ∈ ["Edit", "Bogus"]) ∧
    (VError.undefinedMethod "proc" "Bogus" ∈ validate_pipeline_structure wPipeline wConfig ↔
      ("Bogus" ≠ "" ∧ "Bogus" ∉ wConfig.processing_methods.map Prod.fst)) :=
  ⟨⟨by decide, by decide⟩,
    (process_method_error_iff wPipeline wConfig "proc" "Edit" ["done"] ["Edit", "Bogus"]
      (by decide)).1 "Bogus" (by decide)⟩

/-- A YAML node record as handed to parse_node_from_yaml: each key either
absent (none) or present with its value (node_dict.get). -/
structure NodeDict where
  id : Option String
  type : Option String
  name : Option String
  output : Option (List String)
  extension : Option String
  method_ids : Option (List String)
  pairing_type : Option String
  input_count : Option Int
  condition_description : Option String
  termination_type : Option String
deriving DecidableEq

/-- Python truthiness of an optional string (`if not x`): absent and empty
are both falsy. -/
def falsyStr : Option String → Bool
  | none => true
  | some s => s == ""

/-- parse_node_from_yaml: dispatch on the type field; a ValueError becomes
an Except.error carrying the message kind; a missing output defaults to the
empty list; `not all([node_type, node_id, name])` and the `if not field`
guards follow Python truthiness; method_ids and input_count are tested with
`is None` only. -/
def parse_node_from_yaml (d : NodeDict) : Except String PipelineNode :=
  let output := d.output.getD []
  if falsyStr d.type || falsyStr d.id || falsyStr d.name then
    Except.error "Missing required fields (id, type, name) in node"
  else
    let node_type := d.type.getD ""
    let node_id := d.id.getD ""
    let name := d.name.getD ""
    if node_type = "Capture" then
      Except.ok (.capture node_id name output)
    else if node_type = "File" then
      if falsyStr d.extension then
        Except.error "File node missing required extension field"
      else
        Except.ok (.file node_id name output (d.extension.getD ""))
    else if node_type = "Process" then
      match d.method_ids with
      | none => Except.error "Process node missing required method_ids field"
      | some ms => Except.ok (.process node_id name output ms)
    else if node_type = "Pairing" then
      if falsyStr d.pairing_type || d.input_count.isNone then
        Except.error "Pairing node missing required fields (pairing_type, input_count)"
      else
        Except.ok (.pairing node_id name output (d.pairing_type.getD "") (d.input_count.getD 0))
    else if node_type = "Branching" then
      if falsyStr d.condition_description then
        Except.error "Branching node missing required condition_description field"
      else
        Except.ok (.branching node_id name output (d.condition_description.getD ""))
    else if node_type = "Termination" then
      if falsyStr d.termination_type then
        Except.error "Termination node missing required termination_type field"
      else
        Except.ok (.termination node_id name output (d.termination_type.getD ""))
    else
      Except.error "Unknown node type"

/-- The amended rejection condition, written from the amended claim: a
required string field counts as missing when absent or empty (Python
truthiness); method_ids and input_count count as missing only when absent. -/
def parse_should_fail (d : NodeDict) : Bool :=
  let t := d.type.getD ""
  falsyStr d.type || falsyStr d.id || falsyStr d.name ||
    (if t = "Capture" then false
     else if t = "File" then falsyStr d.extension
     else if t = "Process" then d.method_ids.isNone
     else if t = "Pairing" then falsyStr d.pairing_type || d.input_count.isNone
     else if t = "Branching" then falsyStr d.condition_description
     else if t = "Termination" then falsyStr d.termination_type
     else true)

/-- A record whose extension key is present but holds the empty string. -/
def emptyExtensionRecord : NodeDict :=
  { id := some "n1", type := some "File", name := some "f", output := none,
    extension := some "", method_ids := none, pairing_type := none,
    input_count := none, condition_description := none, termination_type := none }

/-- C4 counterexample: a record whose type is File (one of the six variants),
whose id, type and name are present and non-empty, and whose extension key is
present (the empty string, so not missing) is still rejected by
parse_node_from_yaml, against the claim that such a record parses. -/
theorem parse_rejects_present_empty_extension :
    emptyExtensionRecord.type = some "File" ∧
    emptyExtensionRecord.id = some "n1" ∧
    emptyExtensionRecord.name = some "f" ∧
    emptyExtensionRecord.extension = some "" ∧
    parse_node_from_yaml emptyExtensionRecord
      = Except.error "File node missing required extension field" :=
  ⟨rfl, rfl, rfl, rfl, rfl⟩

theorem eq_some_getD_of_not_falsy (o : Option String) (h : falsyStr o = false) :
    o = some (o.getD "") := by
  cases o with
  | none => simp [falsyStr] at h
  | some s => rfl

/-- C4 (amended): parse_node_from_yaml fails exactly when the type field is
missing, empty or not one of the six variants, or id or name is missing or
empty, or the type-specific required field is missing (for the string-valued
ones, missing or empty; for method_ids and input_count, only missing); for
every other record it returns the typed node of the corresponding variant,
with a missing output field defaulting to the empty list. -/
theorem parse_node_from_yaml_spec (d : NodeDict) :
    ((∃ msg, parse_node_from_yaml d = Except.error msg) ↔ parse_should_fail d = true) ∧
    (∀ node, parse_node_from_yaml d = Except.ok node →
      node.id = d.id.getD "" ∧ node.name = d.name.getD "" ∧
      node.output = d.output.getD [] ∧
      (match node with
       | .capture _ _ _ => d.type = some "Capture"
       | .file _ _ _ ext => d.type = some "File" ∧ d.extension = some ext
       | .process _ _ _ ms => d.type = some "Process" ∧ d.method_ids = some ms
       | .pairing _ _ _ pt ic =>
          d.type = some "Pairing" ∧ d.pairing_type = some pt ∧ d.input_count = some ic
       | .branching _ _ _ cd =>
          d.type = some "Branching" ∧ d.condition_description = some cd
       | .termination _ _ _ tt =>
          d.type = some "Termination" ∧ d.termination_type = some tt)) := by
  by_cases hg : (falsyStr d.type || falsyStr d.id || falsyStr d.name) = true
  · refine ⟨⟨fun _ => ?_, fun _ => ?_⟩, fun node hnode => ?_⟩
    · simp only [parse_should_fail]
      simp only [Bool.or_eq_true] at hg ⊢
      tauto
    · exact ⟨_, by simp only [parse_node_from_yaml]; rw [if_pos hg]⟩
    · simp only [parse_node_from_yaml] at hnode
      rw [if_pos hg] at hnode
      exact absurd hnode (by simp)
  · have hsplit : falsyStr d.type = false ∧ falsyStr d.id = false ∧ falsyStr d.name = false := by
      rcases Bool.eq_false_or_eq_true (falsyStr d.type) with h1 | h1 <;>
        rcases Bool.eq_false_or_eq_true (falsyStr d.id) with h2 | h2 <;>
        rcases Bool.eq_false_or_eq_true (falsyStr d.name) with h3 | h3 <;>
        simp [h1, h2, h3] at hg ⊢
    obtain ⟨ht, hi, hn⟩ := hsplit
    have htype : d.type = some (d.type.getD "") := eq_some_getD_of_not_falsy _ ht
    simp only [parse_node_from_yaml, parse_should_fail]
    rw [if_neg hg]
    simp only [ht, hi, hn, Bool.false_or]
    by_cases hcap : d.type.getD "" = "Capture"
    · rw [if_pos hcap, if_pos hcap]
      refine ⟨by simp, fun node hnode => ?_⟩
      obtain rfl := (Except.ok.inj hnode).symm
      exact ⟨rfl, rfl, rfl, by rw [htype, hcap]⟩
    · rw [if_neg hcap, if_neg hcap]
      by_cases hfile : d.type.getD "" = "File"
      · rw [if_pos hfile, if_pos hfile]
        by_cases hext : falsyStr d.extension = true
        · rw [if_pos hext]
          exact ⟨by simp [hext], fun node hnode => absurd hnode (by simp)⟩
        · rw [if_neg hext]
          refine ⟨by simp [Bool.eq_false_iff.mpr hext], fun node hnode => ?_⟩
          obtain rfl := (Except.ok.inj hnode).symm
          refine ⟨rfl, rfl, rfl, by rw [htype, hfile], ?_⟩
          exact eq_some_getD_of_not_falsy _ (Bool.eq_false_iff.mpr hext)
      · rw [if_neg hfile, if_neg hfile]
        by_cases hproc : d.type.getD "" = "Process"
        · rw [if_pos hproc, if_pos hproc]
          cases hms : d.method_ids with
          | none =>
            exact ⟨by simp [hms], fun node hnode => absurd hnode (by simp)⟩
          | some ms =>
            refine ⟨by simp [hms], fun node hnode => ?_⟩
            obtain rfl := (Except.ok.inj hnode).symm
            exact ⟨rfl, rfl, rfl, by rw [htype, hproc], rfl⟩
        · rw [if_neg hproc, if_neg hproc]
          by_cases hpair : d.type.getD "" = "Pairing"
          · rw [if_pos hpair, if_pos hpair]
            by_cases hpt : (falsyStr d.pairing_type || d.input_count.isNone) = true
            · rw [if_pos hpt]
              exact ⟨by simp [hpt], fun node hnode => absurd hnode (by simp)⟩
            · rw [if_neg hpt]
              have hpt2 : falsyStr d.pairing_type = false ∧ d.input_count.isNone = false := by
                rcases Bool.eq_false_or_eq_true (falsyStr d.pairing_type) with h1 | h1 <;>
                  rcases Bool.eq_false_or_eq_true d.input_count.isNone with h2 | h2 <;>
                  simp [h1, h2] at hpt ⊢
              refine ⟨by simp [hpt2.1, hpt2.2], fun node hnode => ?_⟩
              obtain rfl := (Except.ok.inj hnode).symm
              refine ⟨rfl, rfl, rfl, by rw [htype, hpair],
                eq_some_getD_of_not_falsy _ hpt2.1, ?_⟩
              cases hic : d.input_count with
              | none => rw [hic] at hpt2; simp at hpt2
              | some ic => rfl
          · rw [if_neg hpair, if_neg hpair]
            by_cases hbr : d.type.getD "" = "Branching"
            · rw [if_pos hbr, if_pos hbr]
              by_cases hcd : falsyStr d.condition_description = true
              · rw [if_pos hcd]
                exact ⟨by simp [hcd], fun node hnode => absurd hnode (by simp)⟩
              · rw [if_neg hcd]
                refine ⟨by simp [Bool.eq_false_iff.mpr hcd], fun node hnode => ?_⟩
                obtain rfl := (Except.ok.inj hnode).symm
                refine ⟨rfl, rfl, rfl, by rw [htype, hbr], ?_⟩
                exact eq_some_getD_of_not_falsy _ (Bool.eq_false_iff.mpr hcd)
            · rw [if_neg hbr, if_neg hbr]
              by_cases hterm : d.type.getD "" = "Termination"
              · rw [if_pos hterm, if_pos hterm]
                by_cases htt : falsyStr d.termination_type = true
                · rw [if_pos htt]
                  exact ⟨by simp [htt], fun node hnode => absurd hnode (by simp)⟩
                · rw [if_neg htt]
                  refine ⟨by simp [Bool.eq_false_iff.mpr htt], fun node hnode => ?_⟩
                  obtain rfl := (Except.ok.inj hnode).symm
                  refine ⟨rfl, rfl, rfl, by rw [htype, hterm], ?_⟩
                  exact eq_some_getD_of_not_falsy _ (Bool.eq_false_iff.mpr htt)
              · rw [if_neg hterm, if_neg hterm]
                exact ⟨by simp, fun node hnode => absurd hnode (by simp)⟩

/-- One separate_images entry value: its optional files list
(image_data.get, defaulting to the empty list). -/
structure ImageData where
  files : Option (List String)
deriving DecidableEq

/-- One ImageGroup dictionary from the Photo Pairing Tool: group_id,
camera_id, counter, and the ordered suffix-keyed separate_images mapping
(group.get, defaulting to the empty mapping). -/
structure ImageGroup where
  group_id : String
  camera_id : String
  counter : String
  separate_images : Option (List (String × ImageData))
deriving DecidableEq

/-- The SpecificImage dataclass. -/
structure SpecificImage where
  unique_id : String
  group_id : String
  camera_id : String
  counter : String
  suffix : String
  actual_files : List String
deriving DecidableEq

/-- The body of the inner loop of flatten_imagegroups_to_specific_images:
the SpecificImage built from one group and one (suffix, image_data) pair. -/
def mkSpecificImage (g : ImageGroup) (pr : String × ImageData) : SpecificImage :=
  { unique_id :=
      if pr.1 = "" then g.camera_id ++ g.counter
      else g.camera_id ++ g.counter ++ "-" ++ pr.1,
    group_id := g.group_id,
    camera_id := g.camera_id,
    counter := g.counter,
    suffix := pr.1,
    actual_files := (pr.2.files.getD []).mergeSort (fun a b => decide (a ≤ b)) }

/-- flatten_imagegroups_to_specific_images: two nested loops appending one
SpecificImage per (group, suffix) pair to the result list. -/
def flatten_imagegroups_to_specific_images (imagegroups : List ImageGroup) :
    List SpecificImage :=
  imagegroups.foldl (fun acc g =>
    (g.separate_images.getD []).foldl (fun acc2 pr => acc2 ++ [mkSpecificImage g pr]) acc) []

theorem foldl_append_map {α β : Type} (f : α → β) :
    ∀ (l : List α) (acc : List β),
      l.foldl (fun a x => a ++ [f x]) acc = acc ++ l.map f := by
  intro l
  induction l with
  | nil => intro acc; simp
  | cons x xs ih =>
    intro acc
    simp only [List.foldl_cons, List.map_cons]
    rw [ih]
    simp

theorem flatten_eq_flatMap (gs : List ImageGroup) :
    flatten_imagegroups_to_specific_images gs
      = gs.flatMap (fun g => (g.separate_images.getD []).map (mkSpecificImage g)) := by
  unfold flatten_imagegroups_to_specific_images
  suffices h : ∀ (acc : List SpecificImage),
      gs.foldl (fun acc g =>
        (g.separate_images.getD []).foldl (fun acc2 pr => acc2 ++ [mkSpecificImage g pr]) acc) acc
        = acc ++ gs.flatMap (fun g => (g.separate_images.getD []).map (mkSpecificImage g)) by
    simpa using h []
  induction gs with
  | nil => intro acc; simp
  | cons g gs ih =>
    intro acc
    simp only [List.foldl_cons, List.flatMap_cons]
    rw [foldl_append_map, ih]
    simp

/-- C7: flattening yields exactly one SpecificImage per (group, suffix) pair,
in order, and its unique_id is camera_id ++ counter, extended by a dash and
the suffix exactly when the suffix is non-empty. -/
theorem flatten_one_image_per_pair (gs : List ImageGroup) :
    flatten_imagegroups_to_specific_images gs
      = gs.flatMap (fun g => (g.separate_images.getD []).map (mkSpecificImage g)) ∧
    (flatten_imagegroups_to_specific_images gs).length
      = (gs.map (fun g => (g.separate_images.getD []).length)).sum ∧
    ∀ (g : ImageGroup) (pr : String × ImageData),
      (mkSpecificImage g pr).suffix = pr.1 ∧
      (mkSpecificImage g pr).unique_id
        = (if pr.1 = "" then g.camera_id ++ g.counter
           else g.camera_id ++ g.counter ++ "-" ++ pr.1) := by
  refine ⟨flatten_eq_flatMap gs, ?_, fun g pr => ⟨rfl, rfl⟩⟩
  rw [flatten_eq_flatMap gs]
  induction gs with
  | nil => simp
  | cons g gs ih => simp [ih]

theorem sorted_mergeSort_str (l : List String) :
    (l.mergeSort (fun a b => decide (a ≤ b))).Pairwise (fun a b : String => a ≤ b) := by
  have h := @List.sorted_mergeSort String (fun a b => decide (a ≤ b))
    (fun a b c h1 h2 => by
      simp only [decide_eq_true_eq] at h1 h2 ⊢
      exact le_trans h1 h2)
    (fun a b => by
      simp only [Bool.or_eq_true, decide_eq_true_eq]
      exact le_total a b)
    l
  exact h.imp (fun hab => by simpa using hab)

/-- C10: the SpecificImage flattened from a (group, suffix) pair carries
actual_files equal to the files list of that pair sorted ascending (a sorted
permutation of it, which pins the list uniquely), and a pair without a files
key yields an empty actual_files list rather than an error. -/
theorem flatten_actual_files_sorted (gs : List ImageGroup) (g : ImageGroup)
    (pr : String × ImageData) (hg : g ∈ gs) (hpr : pr ∈ g.separate_images.getD []) :
    mkSpecificImage g pr ∈ flatten_imagegroups_to_specific_images gs ∧
    (mkSpecificImage g pr).actual_files.Pairwise (fun a b : String => a ≤ b) ∧
    ((mkSpecificImage g pr).actual_files).Perm (pr.2.files.getD []) ∧
    (pr.2.files = none → (mkSpecificImage g pr).actual_files = []) := by
  refine ⟨?_, sorted_mergeSort_str _, List.mergeSort_perm _ _, ?_⟩
  · rw [flatten_eq_flatMap]
    rw [List.mem_flatMap]
    exact ⟨g, hg, List.mem_map.mpr ⟨pr, hpr, rfl⟩⟩
  · intro hnone
    simp [mkSpecificImage, hnone]

/-- A concrete imagegroups list: one group with a base pair carrying unsorted
files and a suffix pair with no files key. -/
def wGroups : List ImageGroup :=
  [⟨"AB3D0001", "AB3D", "0001",
    some [("", ⟨some ["AB3D0001.XMP", "AB3D0001.CR3"]⟩), ("2", ⟨none⟩)]⟩]

theorem flatten_actual_files_sorted_witness :
    ((⟨"AB3D0001", "AB3D", "0001",
        some [("", ⟨some ["AB3D0001.XMP", "AB3D0001.CR3"]⟩), ("2", ⟨none⟩)]⟩ : ImageGroup)
      ∈ wGroups) ∧
    (("2", (⟨none⟩ : ImageData)) ∈
      (Option.some [("", (⟨some ["AB3D0001.XMP", "AB3D0001.CR3"]⟩ : ImageData)),
        ("2", (⟨none⟩ : ImageData))]).getD []) ∧
    ((mkSpecificImage ⟨"AB3D0001", "AB3D", "0001",
        some [("", ⟨some ["AB3D0001.XMP", "AB3D0001.CR3"]⟩), ("2", ⟨none⟩)]⟩
        ("2", ⟨none⟩)).actual_files = []) := by
  refine ⟨by decide, by decide, ?_⟩
  have h := flatten_actual_files_sorted wGroups
    ⟨"AB3D0001", "AB3D", "0001",
      some [("", ⟨some ["AB3D0001.XMP", "AB3D0001.CR3"]⟩), ("2", ⟨none⟩)]⟩
    ("2", ⟨none⟩) (by decide) (by decide)
  exact h.2.2.2 rfl

/-- A complete, valid File record. -/
def goodFileRecord : NodeDict :=
  { id := some "raw", type := some "File", name := some "Raw", output := none,
    extension := some ".CR3", method_ids := none, pairing_type := none,
    input_count := none, condition_description := none, termination_type := none }

theorem parse_node_from_yaml_spec_witness :
    parse_node_from_yaml goodFileRecord
      = Except.ok (PipelineNode.file "raw" "Raw" [] ".CR3") ∧
    (PipelineNode.file "raw" "Raw" [] ".CR3").id = goodFileRecord.id.getD "" ∧
    (PipelineNode.file "raw" "Raw" [] ".CR3").name = goodFileRecord.name.getD "" ∧
    (PipelineNode.file "raw" "Raw" [] ".CR3").output = goodFileRecord.output.getD [] ∧
    goodFileRecord.type = some "File" ∧
    goodFileRecord.extension = some ".CR3" := by
  have h := (parse_node_from_yaml_spec goodFileRecord).2
    (PipelineNode.file "raw" "Raw" [] ".CR3") rfl
  exact ⟨rfl, h.1, h.2.1, h.2.2.1, h.2.2.2.1, h.2.2.2.2⟩

/-- Modelled from the spec: one enumerated Path (design document §3): the
ordered node ids from Capture to a Termination or truncation point, the
truncation flag and note, and the accumulated process suffix. The enumerator
itself is absent from the source (main is a stub with TODO markers). -/
structure EnumPath where
  nodes : List String
  truncated : Bool
  truncationNote : Option String
  processSuffix : String
deriving DecidableEq

/-- Modelled from the spec: the suffix fragment one pass through a Process
node contributes: the ordered concatenation of "-" ++ m over the non-empty
entries of its method_ids. -/
def suffixFragment (ms : List String) : String :=
  (ms.filter (fun m => !(m == ""))).foldl (fun acc m => acc ++ "-" ++ m) ""

/-- Per-path visit counter lookup, zero when the id was never visited. -/
def visitCount (counts : List (String × Nat)) (i : String) : Nat :=
  match counts.find? (fun pr => pr.1 == i) with
  | some pr => pr.2
  | none => 0

/-- Increment the per-path visit counter of one id. -/
def bumpCount (counts : List (String × Nat)) (i : String) : List (String × Nat) :=
  if counts.any (fun pr => pr.1 == i) then
    counts.map (fun pr => if pr.1 == i then (pr.1, pr.2 + 1) else pr)
  else
    counts ++ [(i, 1)]

/-- Modelled from the spec: the depth-first walk of the path enumerator
(design document §4.3), carrying the path so far, the per-path visit counts
and the accumulated process suffix. Entering a Termination emits a completed
path; re-entering a node already visited maxIter times within the current
path emits a truncated path and never recurses further; a dead end (a
non-Termination node with no outputs, or a dangling id) emits a truncated
path with a diagnostic note; otherwise the walk recurses once per output
edge, in edge order. The fuel argument only bounds recursion depth and is
chosen in `enumerate` to dominate the total per-path visit budget. -/
def enumAux (g : PipelineConfig) (maxIter : Nat) :
    Nat → String → List String → List (String × Nat) → String → List EnumPath
  | 0, i, pathSoFar, _, suf =>
      [⟨pathSoFar ++ [i], true, some ("recursion budget exhausted at " ++ i), suf⟩]
  | fuel + 1, i, pathSoFar, counts, suf =>
    if maxIter ≤ visitCount counts i then
      [⟨pathSoFar ++ [i], true, some ("loop truncated at node " ++ i), suf⟩]
    else
      let counts2 := bumpCount counts i
      let path2 := pathSoFar ++ [i]
      match g.lookup i with
      | none => [⟨path2, true, some ("dead end: unknown node " ++ i), suf⟩]
      | some n =>
        if n.isTermination then
          [⟨path2, false, none, suf⟩]
        else
          let suf2 :=
            match n with
            | .process _ _ _ ms => suf ++ suffixFragment ms
            | _ => suf
          match n.output with
          | [] => [⟨path2, true, some ("dead end at node " ++ i), suf2⟩]
          | outs => outs.flatMap (fun o => enumAux g maxIter fuel o path2 counts2 suf2)

/-- Modelled from the spec: enumerate(graph, maxIterationsPerNode), the
bounded depth-first enumeration of all Capture-to-Termination paths of
design document §4.3, starting from the first Capture node; a graph with no
Capture node has no paths. -/
def enumerate (g : PipelineConfig) (maxIterationsPerNode : Nat) : List EnumPath :=
  match (g.nodes.filter (·.isCapture)).head? with
  | none => []
  | some c =>
    enumAux g maxIterationsPerNode
      ((idUniverse g).length * maxIterationsPerNode + (idUniverse g).length + 1)
      c.id [] [] ""

/-- C8: the path enumerator is deterministic: two runs on the same graph with
the same maxIterationsPerNode yield identical path lists, the same paths in
the same order (in this model enumeration is a pure function of the graph
and the bound, with a fixed DFS edge order). -/
theorem enumerate_deterministic (g : PipelineConfig) (maxIter : Nat)
    (l1 l2 : List EnumPath)
    (h1 : enumerate g maxIter = l1) (h2 : enumerate g maxIter = l2) : l1 = l2 := by
  rw [← h1, ← h2]

theorem enumerate_deterministic_witness :
    enumerate wPipeline MAX_ITERATIONS = enumerate wPipeline MAX_ITERATIONS :=
  enumerate_deterministic wPipeline MAX_ITERATIONS
    (enumerate wPipeline MAX_ITERATIONS) (enumerate wPipeline MAX_ITERATIONS) rfl rfl

end PipelineValidation
